import Mathlib

/-!
# Verification of the groove-scheduler core (`src/code/main.py`)

Shallow embedding of the scheduling core: the data model (`Student`, `Song`,
availability dictionary), the availability query `is_available`, the
depth-first schedule enumerator `find_schedules`, the cost evaluator
`find_schedule_costs`, and the ranking step of `main`.

Times are modelled as total minutes (`Nat`); the Python `timedelta`/`datetime`
arithmetic of the program only ever adds 30-minute steps and 30-minute-multiple
durations, so minute-valued `Nat` arithmetic is exact.  The global constant
`TIMESTEP = timedelta(minutes=30)` becomes `TIMESTEP = 30`.

Fallible Python operations (dictionary indexing raising `KeyError`, the `in`
operator on a non-iterable raising `TypeError`) are embedded in `Except PyErr`.
The error type also carries the error classes named by the specification
(`UnalignedQueryError`, `InvalidDurationError`) so that claims about them are
statable; the code itself never produces them.
-/

/-- Python `class Student`: identity, equality and hash are the name alone. -/
structure Student where
  name : String
deriving DecidableEq, Repr

/-- Python `class Song`: a name, a leader, members and a practice length
(minutes; the Python default is `timedelta(hours=1)`, i.e. 60). -/
structure Song where
  name : String
  leader : Student
  members : List Student
  practice_length : Nat
deriving DecidableEq, Repr

/-- Error classes.  `KeyError` and `TypeError` are the Python runtime errors
the code can actually raise; `UnalignedQueryError` and `InvalidDurationError`
are the classes named by the specification's error taxonomy (§7), included so
that statements about them can be written down. -/
inductive PyErr where
  | KeyError
  | TypeError
  | UnalignedQueryError
  | InvalidDurationError
deriving DecidableEq, Repr

/-- `Availability.avails_dict : Dict[datetime, List[Student]]`, modelled as an
association list with unique keys (Python dict); lookup is `List.lookup`. -/
abbrev AvDict := List (Nat × List Student)

/-- `TIMESTEP = timedelta(minutes=30)`. -/
def TIMESTEP : Nat := 30

/-- `Song.__init__`: stores the four fields and performs no validation
whatsoever (in particular no duration check), hence never raises. -/
def Song.init (name : String) (leader : Student) (members : List Student)
    (practice_length : Nat) : Except PyErr Song :=
  .ok { name := name, leader := leader, members := members,
        practice_length := practice_length }

/-- The condition of `if (start.minute != 0 and start.minute != 30) or
(end.minute != 0 and end.minute != 30)` guarding the `print("wtf?")` warning
at the top of `is_available`; `t.minute` is `t % 60` for minute-valued times.
True exactly when the warning is printed.  The code then continues normally:
no exception is raised on this path. -/
def alignWarn (startT endT : Nat) : Bool :=
  ((startT % 60 != 0) && (startT % 60 != 30)) || ((endT % 60 != 0) && (endT % 60 != 30))

/-- Python `start in availability.avails_dict[start]`: the left operand is a
`datetime` and the list elements are `Student`s.  `datetime.__eq__` and
`Student.__eq__` each return `NotImplemented` on the other's type, so `==`
falls back to identity and the membership test is `False` for every element. -/
def pyEqTimeStudent (_t : Nat) (_s : Student) : Bool := false

/-- Python `student in avail` where `avail` is a single `Student` (the
elements of `relevant_avails`, which `extend` filled with `Student`s): `in`
applied to a non-iterable raises `TypeError`. -/
def pyMemStudent (_student : Student) (_avail : Student) : Except PyErr Bool :=
  .error .TypeError

/-- The `while start < end` loop of `is_available`.  Each iteration evaluates
`availability.avails_dict[start]` (raising `KeyError` when the slot is not a
key), tests `start in avails_dict[start]` (see `pyEqTimeStudent`), extends
`relevant_avails` when that test holds, and advances `start` by `TIMESTEP`. -/
def availLoop (startT endT : Nat) (av : AvDict) (relevant : List Student) :
    Except PyErr (List Student) :=
  if startT < endT then
    match List.lookup startT av with
    | none => .error .KeyError
    | some lst =>
      availLoop (startT + TIMESTEP) endT av
        (if lst.any (fun s => pyEqTimeStudent startT s) then relevant ++ lst else relevant)
  else
    .ok relevant
termination_by endT - startT
decreasing_by unfold TIMESTEP; omega

/-- `is_available(student, start, end, availability)`: after the (non-fatal)
alignment warning (`alignWarn`), runs the slot loop accumulating
`relevant_avails`, then returns `all(student in avail for avail in
relevant_avails)` (see `pyMemStudent`; `all` on an empty generator is true). -/
def is_available (student : Student) (startT endT : Nat) (av : AvDict) :
    Except PyErr Bool := do
  let relevant ← availLoop startT endT av []
  List.allM (fun avail => pyMemStudent student avail) relevant

/-- True iff every discrete slot `startT, startT+TIMESTEP, ... < endT` is a
key of the availability dictionary. -/
def allSlotsPresent (startT endT : Nat) (av : AvDict) : Bool :=
  if startT < endT then
    (List.lookup startT av).isSome && allSlotsPresent (startT + TIMESTEP) endT av
  else
    true
termination_by endT - startT
decreasing_by unfold TIMESTEP; omega

/-- True iff the student is listed at every discrete slot
`startT, startT+TIMESTEP, ... < endT` of the dictionary: the availability
semantics the specification ascribes to `is_available`. -/
def specAvailable (student : Student) (startT endT : Nat) (av : AvDict) : Bool :=
  if startT < endT then
    (match List.lookup startT av with
     | none => false
     | some lst => lst.contains student) && specAvailable student (startT + TIMESTEP) endT av
  else
    true
termination_by endT - startT
decreasing_by unfold TIMESTEP; omega

theorem availLoop_acc (startT endT : Nat) (av : AvDict) (r : List Student) :
    availLoop startT endT av r =
      if allSlotsPresent startT endT av then .ok r else .error .KeyError := by
  induction startT, endT, av, r using availLoop.induct with
  | case1 startT endT av r hlt hnone =>
    rw [availLoop, allSlotsPresent]
    simp [hlt, hnone]
  | case2 startT endT av r hlt lst hsome ih =>
    rw [availLoop, allSlotsPresent]
    simp [hlt, hsome, pyEqTimeStudent] at ih ⊢
    simpa [pyEqTimeStudent] using ih
  | case3 startT endT av r hlt =>
    rw [availLoop, allSlotsPresent]
    simp [hlt]

theorem is_available_eq (student : Student) (startT endT : Nat) (av : AvDict) :
    is_available student startT endT av =
      if allSlotsPresent startT endT av then .ok true else .error .KeyError := by
  unfold is_available
  rw [availLoop_acc]
  by_cases h : allSlotsPresent startT endT av <;> simp only [h, if_true, if_false] <;> rfl

/-- Sum of the `practice_length`s of a list of songs (the cumulative duration
of a schedule's song order). -/
def durSum (l : List Song) : Nat := (l.map Song.practice_length).sum

/-- Python `remaining_songs.remove(song)`: removes the first element `==` to
`song`; `Song.__eq__` compares by name, so this erases the first song whose
name is `n`. -/
def eraseName (l : List Song) (n : String) : List Song :=
  l.eraseP (fun s => s.name == n)

/-- `find_schedules(schedule_so_far, remaining_songs, all_schedules,
current_time, end_time)`: for every remaining song whose `practice_length +
current_time <= end_time`, recurse with the song appended, removed from the
remaining list, and the cursor advanced; the in-progress order is recorded as
a result exactly when no remaining song fits (`schedule_complete`).  The
Python accumulator `all_schedules` becomes the returned list; results appear
in the same (depth-first discovery) order in which the Python code appends
them. -/
def find_schedules (soFar remaining : List Song) (cur endT : Nat) :
    List (List Song) :=
  let feasible := remaining.filter (fun s => s.practice_length + cur ≤ endT)
  if feasible.isEmpty then
    [soFar]
  else
    feasible.attach.flatMap (fun s =>
      find_schedules (soFar ++ [s.1]) (eraseName remaining s.1.name)
        (cur + s.1.practice_length) endT)
termination_by remaining.length
decreasing_by
  have hs : s.1 ∈ remaining.filter (fun s => s.practice_length + cur ≤ endT) := s.2
  have hr : s.1 ∈ remaining := List.mem_of_mem_filter hs
  have : (eraseName remaining s.1.name).length = remaining.length - 1 := by
    unfold eraseName
    exact List.length_eraseP_of_mem hr (by simp)
  have hpos : 0 < remaining.length := List.length_pos.mpr (List.ne_nil_of_mem hr)
  omega

theorem attach_flatMap {α β : Type} (l : List α) (f : α → List β) :
    l.attach.flatMap (fun s => f s.1) = l.flatMap f := by
  have h := List.flatMap_map (Subtype.val) f l.attach
  rw [List.attach_map_subtype_val] at h
  exact h.symm

theorem find_schedules_eq (soFar remaining : List Song) (cur endT : Nat) :
    find_schedules soFar remaining cur endT =
      if (remaining.filter (fun s => s.practice_length + cur ≤ endT)).isEmpty then
        [soFar]
      else
        (remaining.filter (fun s => s.practice_length + cur ≤ endT)).flatMap (fun s =>
          find_schedules (soFar ++ [s]) (eraseName remaining s.name)
            (cur + s.practice_length) endT) := by
  rw [find_schedules]
  split
  · rfl
  · exact attach_flatMap (remaining.filter (fun s => s.practice_length + cur ≤ endT))
      (fun x => find_schedules (soFar ++ [x]) (eraseName remaining x.name)
        (cur + x.practice_length) endT)

/-- The per-song body of `find_schedule_costs`: `song_cost` starts at 0, gains
50 if `is_available` denies the leader for `[start, start + practice_length)`,
then 1 per member `is_available` denies for the same interval. -/
def songCost (song : Song) (startT : Nat) (av : AvDict) : Except PyErr Nat := do
  let la ← is_available song.leader startT (startT + song.practice_length) av
  let c1 : Nat := if la then 0 else 50
  song.members.foldlM (fun acc m => do
      let ma ← is_available m startT (startT + song.practice_length) av
      pure (if ma then acc else acc + 1)) c1

/-- The per-schedule loop of `find_schedule_costs`: `current_time` is set to
`practice_start_time` once per schedule and — in the source — never updated
inside the song loop (there is no `current_time +=` in `find_schedule_costs`),
so every song of the schedule is scored over the same interval
`[practice_start_time, practice_start_time + practice_length)`; the loop
accumulates `total_cost += pow(song_cost, 2)`. -/
def scheduleCost : List Song → Nat → AvDict → Except PyErr Nat
  | [], _, _ => pure 0
  | song :: rest, cur, av => do
      let sc ← songCost song cur av
      let tc ← scheduleCost rest cur av
      pure (sc ^ 2 + tc)

/-- `find_schedule_costs(all_schedules, practice_start_time, availability)`:
attaches to every enumerated schedule its cost (the Python code writes it into
`schedule.cost`; here it is returned as a pair). -/
def find_schedule_costs (alls : List (List Song)) (startT : Nat) (av : AvDict) :
    Except PyErr (List (List Song × Nat)) :=
  alls.mapM (fun sched => do
    let c ← scheduleCost sched startT av
    pure (sched, c))

/-- `sorted(all_schedules, key=lambda s: s.cost)` in `main`: Python's `sorted`
is an ascending stable sort on the key, embedded as `mergeSort` on the cost
component. -/
def rankSchedules (scored : List (List Song × Nat)) : List (List Song × Nat) :=
  scored.mergeSort (fun a b => a.2 ≤ b.2)

theorem durSum_nil : durSum [] = 0 := rfl

theorem durSum_cons (a : Song) (l : List Song) :
    durSum (a :: l) = a.practice_length + durSum l := by
  simp [durSum]

theorem eraseName_sublist (l : List Song) (n : String) :
    List.Sublist (eraseName l n) l :=
  List.eraseP_sublist l

/-- On a list with pairwise-distinct names, erasing by the name of a member
`s` removes exactly `s`. -/
theorem mem_eraseName_iff {l : List Song} {s : Song}
    (hnd : (l.map Song.name).Nodup) (hs : s ∈ l) (t : Song) :
    t ∈ eraseName l s.name ↔ (t ∈ l ∧ t ≠ s) := by
  induction l with
  | nil => cases hs
  | cons a l ih =>
    simp only [List.map_cons, List.nodup_cons] at hnd
    obtain ⟨han, hnd'⟩ := hnd
    by_cases h : a.name = s.name
    · have hsa : s = a := by
        rcases List.mem_cons.mp hs with hh | hh
        · exact hh
        · exact absurd (h ▸ List.mem_map_of_mem Song.name hh) han
      subst hsa
      have herase : eraseName (s :: l) s.name = l := by
        simp [eraseName, List.eraseP_cons]
      rw [herase]
      constructor
      · intro ht
        refine ⟨List.mem_cons_of_mem _ ht, ?_⟩
        rintro rfl
        exact han (List.mem_map_of_mem Song.name ht)
      · rintro ⟨ht, hne⟩
        rcases List.mem_cons.mp ht with hh | hh
        · exact absurd hh hne
        · exact hh
    · have hsl : s ∈ l := by
        rcases List.mem_cons.mp hs with hh | hh
        · exact absurd (congrArg Song.name hh).symm h
        · exact hh
      have hane : a ≠ s := fun e => h (congrArg Song.name e)
      have herase : eraseName (a :: l) s.name = a :: eraseName l s.name := by
        simp [eraseName, List.eraseP_cons, h]
      rw [herase]
      constructor
      · intro ht
        rcases List.mem_cons.mp ht with hh | hh
        · exact ⟨hh ▸ List.mem_cons_self _ _, hh ▸ hane⟩
        · obtain ⟨h1, h2⟩ := (ih hnd' hsl).mp hh
          exact ⟨List.mem_cons_of_mem _ h1, h2⟩
      · rintro ⟨ht, hne⟩
        rcases List.mem_cons.mp ht with hh | hh
        · exact hh ▸ List.mem_cons_self _ _
        · exact List.mem_cons_of_mem _ ((ih hnd' hsl).mpr ⟨hh, hne⟩)

/-- Shape/capacity invariant of `find_schedules`: every recorded schedule
extends `schedule_so_far`, and when it actually adds songs the cursor after
the last added song is still within `end_time` (each appended song passed the
`practice_length + current_time <= end_time` test). -/
theorem find_schedules_shape (soFar remaining : List Song) (cur endT : Nat) :
    ∀ sched ∈ find_schedules soFar remaining cur endT,
      ∃ rest, sched = soFar ++ rest ∧ (rest ≠ [] → cur + durSum rest ≤ endT) := by
  induction soFar, remaining, cur, endT using find_schedules.induct with
  | case1 soFar remaining cur endT feasible hfe =>
    intro sched hmem
    rw [find_schedules_eq] at hmem
    have hfe' : (remaining.filter (fun s => s.practice_length + cur ≤ endT)).isEmpty = true := hfe
    rw [if_pos hfe'] at hmem
    simp only [List.mem_singleton] at hmem
    exact ⟨[], by simp [hmem], fun h => absurd rfl h⟩
  | case2 soFar remaining cur endT feasible hfe ih =>
    intro sched hmem
    rw [find_schedules_eq] at hmem
    have hfe' : ¬ (remaining.filter (fun s => s.practice_length + cur ≤ endT)).isEmpty = true := hfe
    rw [if_neg hfe'] at hmem
    rw [List.mem_flatMap] at hmem
    obtain ⟨s, hsf, hmem'⟩ := hmem
    have hfit : s.practice_length + cur ≤ endT := by
      have := (List.mem_filter.mp hsf).2
      exact of_decide_eq_true this
    obtain ⟨rest', heq0, hcap0⟩ := ih ⟨s, hsf⟩ sched hmem'
    have heq : sched = soFar ++ [s] ++ rest' := heq0
    have hcap : rest' ≠ [] → cur + s.practice_length + durSum rest' ≤ endT := hcap0
    refine ⟨s :: rest', by simpa using heq, fun _ => ?_⟩
    rcases rest' with - | ⟨b, rest''⟩
    · simp only [durSum_cons, durSum_nil]
      omega
    · have := hcap (by simp)
      rw [durSum_cons]
      omega

/-- Main invariant of `find_schedules` on a remaining list with
pairwise-distinct song names: every recorded schedule is `schedule_so_far`
extended by some `rest` of songs drawn (without repetition) from the remaining
list, and the remaining songs not used by `rest` (collected in `rem`) all fail
the `practice_length + current_time <= end_time` test at the final cursor —
the `schedule_complete` condition under which the Python code appends the
schedule to `all_schedules`. -/
theorem find_schedules_main (soFar remaining : List Song) (cur endT : Nat) :
    (remaining.map Song.name).Nodup →
    ∀ sched ∈ find_schedules soFar remaining cur endT,
      ∃ rest rem,
        sched = soFar ++ rest ∧
        rest ⊆ remaining ∧
        (rest.map Song.name).Nodup ∧
        List.Sublist rem remaining ∧
        (∀ t ∈ remaining, t ∈ rest ∨ t ∈ rem) ∧
        (∀ t ∈ rem, ¬ (t.practice_length + (cur + durSum rest) ≤ endT)) := by
  induction soFar, remaining, cur, endT using find_schedules.induct with
  | case1 soFar remaining cur endT feasible hfe =>
    intro hnd sched hmem
    rw [find_schedules_eq] at hmem
    have hfe' : (remaining.filter (fun s => s.practice_length + cur ≤ endT)).isEmpty = true := hfe
    rw [if_pos hfe'] at hmem
    simp only [List.mem_singleton] at hmem
    refine ⟨[], remaining, by simp [hmem], by simp, by simp, List.Sublist.refl _,
      fun t ht => Or.inr ht, fun t ht hfit => ?_⟩
    have : remaining.filter (fun s => s.practice_length + cur ≤ endT) = [] :=
      List.isEmpty_iff.mp hfe'
    have hnot := List.filter_eq_nil_iff.mp this t ht
    simp only [durSum_nil, Nat.add_zero] at hfit
    exact hnot (by simpa using hfit)
  | case2 soFar remaining cur endT feasible hfe ih =>
    intro hnd sched hmem
    rw [find_schedules_eq] at hmem
    have hfe' : ¬ (remaining.filter (fun s => s.practice_length + cur ≤ endT)).isEmpty = true := hfe
    rw [if_neg hfe'] at hmem
    rw [List.mem_flatMap] at hmem
    obtain ⟨s, hsf, hmem'⟩ := hmem
    have hsrem : s ∈ remaining := List.mem_of_mem_filter hsf
    have hnd' : ((eraseName remaining s.name).map Song.name).Nodup :=
      ((eraseName_sublist remaining s.name).map Song.name).nodup hnd
    obtain ⟨rest', rem', hq1, hq2, hq3, hq4, hq5, hq6⟩ :=
      ih ⟨s, hsf⟩ hnd' sched hmem'
    have heq : sched = soFar ++ [s] ++ rest' := hq1
    have hsub : rest' ⊆ eraseName remaining s.name := hq2
    have hrestnd : (rest'.map Song.name).Nodup := hq3
    have hremsub : List.Sublist rem' (eraseName remaining s.name) := hq4
    have hcover : ∀ t ∈ eraseName remaining s.name, t ∈ rest' ∨ t ∈ rem' := hq5
    have hmax : ∀ t ∈ rem',
        ¬ (t.practice_length + ((cur + s.practice_length) + durSum rest') ≤ endT) := hq6
    refine ⟨s :: rest', rem', by simpa using heq, ?_, ?_, ?_, ?_, ?_⟩
    · intro x hx
      rcases List.mem_cons.mp hx with hh | hh
      · exact hh ▸ hsrem
      · exact (eraseName_sublist remaining s.name).subset (hsub hh)
    · simp only [List.map_cons, List.nodup_cons]
      refine ⟨fun hmemname => ?_, hrestnd⟩
      obtain ⟨u, hu, huname⟩ := List.mem_map.mp hmemname
      have humem := (mem_eraseName_iff hnd hsrem u).mp (hsub hu)
      exact humem.2 (List.inj_on_of_nodup_map hnd humem.1 hsrem huname)
    · exact hremsub.trans (eraseName_sublist remaining s.name)
    · intro t ht
      by_cases hts : t = s
      · exact Or.inl (hts ▸ List.mem_cons_self _ _)
      · rcases hcover t ((mem_eraseName_iff hnd hsrem t).mpr ⟨ht, hts⟩) with hh | hh
        · exact Or.inl (List.mem_cons_of_mem _ hh)
        · exact Or.inr hh
    · intro t ht
      have := hmax t ht
      rw [durSum_cons]
      omega

theorem durSum_append (a b : List Song) : durSum (a ++ b) = durSum a + durSum b := by
  simp [durSum]

theorem except_bind_ok {α β : Type} (a : α) (f : α → Except PyErr β) :
    (Except.ok a >>= f) = f a := rfl

theorem except_bind_error {α β : Type} (e : PyErr) (f : α → Except PyErr β) :
    ((Except.error e : Except PyErr α) >>= f) = Except.error e := rfl

/-! Concrete participants, songs and availability dictionaries used to
evaluate the code on the specification's scenarios. -/

def aliceS : Student := ⟨"alice"⟩
def bobS : Student := ⟨"bob"⟩
def carolS : Student := ⟨"carol"⟩

def songA : Song := ⟨"A", aliceS, [], 60⟩
def songB : Song := ⟨"B", bobS, [], 60⟩
def songC : Song := ⟨"C", aliceS, [], 60⟩
def song1 : Song := ⟨"S1", aliceS, [bobS], 60⟩
def song2 : Song := ⟨"S2", bobS, [carolS], 60⟩

/-- Scenario B availability: a 2-hour window `[0, 120)`, every slot a key;
everyone is listed at every slot except that `song1`'s leader `aliceS` is
missing from the first 30-minute slot. -/
def avB : AvDict :=
  [(0, [bobS, carolS]), (30, [aliceS, bobS, carolS]),
   (60, [aliceS, bobS, carolS]), (90, [aliceS, bobS, carolS])]

/-- Evaluation of the enumerator on two one-hour songs in a one-hour window:
each single-song order is maximal. -/
theorem find_schedules_runAB :
    find_schedules [] [songA, songB] 0 60 = [[songA], [songB]] := by
  have h1 : find_schedules [songA] [songB] 60 60 = [[songA]] := by
    rw [find_schedules_eq]; simp [songB]
  have h2 : find_schedules [songB] [songA] 60 60 = [[songB]] := by
    rw [find_schedules_eq]; simp [songA]
  simp only [songA, songB] at h1 h2
  rw [find_schedules_eq]
  simp [songA, songB, eraseName, List.eraseP, h1, h2]

/-- C1: the claim states that `is_available` returns true iff every discrete
slot of `[start, end)` is marked available for the queried participant, and
false as soon as one slot is missing for that participant.  The code violates
both directions: with `bobS` marked available at no slot it returns `ok true`
(because the slot keys exist and the type-confused membership test keeps
`relevant_avails` empty), and with a slot key entirely absent it raises
`KeyError` instead of returning false — while the per-participant semantics
(`specAvailable`) is false in both situations. -/
theorem C1_is_available_divergence :
    is_available bobS 0 30 [(0, [aliceS])] = .ok true ∧
    specAvailable bobS 0 30 [(0, [aliceS])] = false ∧
    is_available bobS 0 60 [(0, [aliceS, bobS])] = .error .KeyError ∧
    specAvailable bobS 0 60 [(0, [aliceS, bobS])] = false := by
  refine ⟨?_, ?_, ?_, ?_⟩ <;>
    simp [is_available_eq, allSlotsPresent, specAvailable, List.lookup, TIMESTEP,
      aliceS, bobS]

/-- C2: the claim states that a participant with no entries at all in the
availability data is treated as fully unavailable (every query false) and no
error is raised.  The code does neither: for `bobS`, who appears in no slot
list, the query over `[0, 60)` returns `ok true` when the slot keys exist,
and the query over `[0, 30)` on an empty dictionary raises `KeyError`. -/
theorem C2_missing_participant_divergence :
    is_available bobS 0 60 [(0, [aliceS]), (30, [aliceS])] = .ok true ∧
    is_available bobS 0 30 ([] : AvDict) = .error .KeyError := by
  refine ⟨?_, ?_⟩ <;>
    simp [is_available_eq, allSlotsPresent, List.lookup, TIMESTEP, aliceS, bobS]

/-- C4 counterexample: with one task of duration 1 hour and a window of 30
minutes the enumerator does not return an empty result collection: at the root
nothing fits, so `schedule_complete` stays true and the empty
`schedule_so_far` is itself recorded as a candidate. -/
theorem C4_counterexample : find_schedules [] [songC] 0 30 ≠ [] := by
  rw [find_schedules_eq]
  simp [songC]

/-- C4 (amended): with one task of duration 1 hour and a window of 30 minutes
the enumerator returns exactly one candidate — the empty ordering — and raises
no error. -/
theorem C4_amended : find_schedules [] [songC] 0 30 = [[]] := by
  rw [find_schedules_eq]
  simp [songC]

/-- C6 counterexample: a query whose boundaries are not aligned to the
30-minute step (45 and 75 are neither on the hour nor on the half-hour)
triggers the `print("wtf?")` warning condition and then returns normally —
no `UnalignedQueryError` (nor any exception) is raised. -/
theorem C6_counterexample :
    alignWarn 45 75 = true ∧
    is_available aliceS 45 75 [(45, [aliceS])] = .ok true := by
  refine ⟨by decide, ?_⟩
  simp [is_available_eq, allSlotsPresent, List.lookup, TIMESTEP]

/-- C6 (amended): an availability query with an unaligned start or end
boundary only triggers the printed `"wtf?"` warning (`alignWarn`) and then
continues: `is_available` never raises `UnalignedQueryError`; its outcome is
always the ordinary one — `ok true` when every queried slot is a dictionary
key and `KeyError` otherwise. -/
theorem C6_amended (student : Student) (startT endT : Nat) (av : AvDict)
    (h : alignWarn startT endT = true) :
    is_available student startT endT av ≠ .error .UnalignedQueryError ∧
    (is_available student startT endT av = .ok true ∨
     is_available student startT endT av = .error .KeyError) := by
  rw [is_available_eq]
  by_cases hs : allSlotsPresent startT endT av <;> simp [hs]

theorem C6_witness :
    alignWarn 45 45 = true ∧
    (is_available aliceS 45 45 ([] : AvDict) ≠ .error .UnalignedQueryError ∧
     (is_available aliceS 45 45 ([] : AvDict) = .ok true ∨
      is_available aliceS 45 45 ([] : AvDict) = .error .KeyError)) :=
  ⟨by decide, C6_amended aliceS 45 45 [] (by decide)⟩

/-- C7 counterexample: constructing a task whose duration is 45 minutes (not
a multiple of the 30-minute step) succeeds — `Song.__init__` contains no
validation and raises no `InvalidDurationError`. -/
theorem C7_counterexample :
    Song.init "T" aliceS [] 45 = .ok ⟨"T", aliceS, [], 45⟩ := rfl

/-- C7 (amended): `Song` construction performs no duration validation at all:
for every name, leader, member list and duration (45 minutes included) it
returns the song unchanged and raises no error. -/
theorem C7_amended (nm : String) (leader : Student) (members : List Student)
    (len : Nat) :
    Song.init nm leader members len = .ok ⟨nm, leader, members, len⟩ := rfl

/-- C10: the result of `is_available` is independent of the student argument:
for any two students and a step-aligned interval all of whose slots are keys
of the availability dictionary, the two queries agree.  (In the code this
holds because the type-confused membership test keeps `relevant_avails` empty,
so the final `all(...)` never looks at the student.) -/
theorem C10_student_independence (s1 s2 : Student) (startT endT : Nat)
    (av : AvDict) (h1 : startT % TIMESTEP = 0) (h2 : endT % TIMESTEP = 0)
    (h3 : allSlotsPresent startT endT av = true) :
    is_available s1 startT endT av = is_available s2 startT endT av := by
  rw [is_available_eq, is_available_eq]

theorem C10_witness :
    (0 % TIMESTEP = 0) ∧ (30 % TIMESTEP = 0) ∧
    allSlotsPresent 0 30 [(0, [aliceS])] = true ∧
    is_available aliceS 0 30 [(0, [aliceS])] =
      is_available bobS 0 30 [(0, [aliceS])] := by
  have h3 : allSlotsPresent 0 30 [(0, [aliceS])] = true := by
    simp [allSlotsPresent, List.lookup, TIMESTEP]
  exact ⟨by decide, by decide, h3,
    C10_student_independence aliceS bobS 0 30 [(0, [aliceS])] (by decide) (by decide) h3⟩

/-- C3: maximality of the enumerator (for a task list with distinct names,
as the data model requires).  First conjunct: for every returned candidate,
every song of the input not occurring in it fails the
`practice_length + current_time <= end_time` test at the candidate's final
cursor, i.e. cannot be appended within the window.  Second conjunct: no
returned candidate is a (strict) prefix of another returned candidate. -/
theorem C3_maximality (songs : List Song) (startT endT : Nat)
    (hnd : (songs.map Song.name).Nodup) :
    (∀ sched ∈ find_schedules [] songs startT endT, ∀ t ∈ songs,
        t.name ∉ sched.map Song.name →
        ¬ (t.practice_length + (startT + durSum sched) ≤ endT)) ∧
    (∀ s1 ∈ find_schedules [] songs startT endT,
      ∀ s2 ∈ find_schedules [] songs startT endT,
        List.IsPrefix s1 s2 → s1 = s2) := by
  have hpart1 : ∀ sched ∈ find_schedules [] songs startT endT, ∀ t ∈ songs,
      t.name ∉ sched.map Song.name →
      ¬ (t.practice_length + (startT + durSum sched) ≤ endT) := by
    intro sched hmem t ht hname
    obtain ⟨rest, rem, hq1, hq2, hq3, hq4, hq5, hq6⟩ :=
      find_schedules_main [] songs startT endT hnd sched hmem
    simp only [List.nil_append] at hq1
    subst hq1
    rcases hq5 t ht with hh | hh
    · exact absurd (List.mem_map_of_mem Song.name hh) hname
    · exact hq6 t hh
  refine ⟨hpart1, ?_⟩
  intro s1 hm1 s2 hm2 hpre
  obtain ⟨u, hu⟩ := hpre
  rcases u with - | ⟨t, tail⟩
  · simpa using hu
  · exfalso
    obtain ⟨rest2, rem2, hr1, hr2, hr3, hr4, hr5, hr6⟩ :=
      find_schedules_main [] songs startT endT hnd s2 hm2
    simp only [List.nil_append] at hr1
    have ht2 : t ∈ s2 := by
      rw [← hu]; exact List.mem_append_right _ (List.mem_cons_self _ _)
    have htsongs : t ∈ songs := (hr1 ▸ hr2) ht2
    have hnames : ((s1 ++ t :: tail).map Song.name).Nodup := by
      rw [hu, hr1]; exact hr3
    have hnot : t.name ∉ s1.map Song.name := by
      rw [List.map_append] at hnames
      intro habs
      exact (List.nodup_append.mp hnames).2.2 habs
        (by simp)
    have hnofit := hpart1 s1 hm1 t htsongs hnot
    obtain ⟨rest, heq, hcap⟩ := find_schedules_shape [] songs startT endT s2 hm2
    simp only [List.nil_append] at heq
    have hs2ne : s2 ≠ [] := by
      rw [← hu]; simp
    have hcap2 : startT + durSum s2 ≤ endT := heq ▸ hcap (heq ▸ hs2ne)
    rw [← hu, durSum_append, durSum_cons] at hcap2
    omega

theorem C3_witness :
    (([songA, songB].map Song.name).Nodup) ∧
    ¬ (songB.practice_length + (0 + durSum [songA]) ≤ 60) := by
  have hmem : [songA] ∈ find_schedules [] [songA, songB] 0 60 := by
    rw [find_schedules_runAB]; simp
  refine ⟨by simp [songA, songB], ?_⟩
  exact (C3_maximality [songA, songB] 0 60 (by simp [songA, songB])).1
    [songA] hmem songB (by simp) (by simp [songA, songB])

/-- C5: the claim states the Scenario B costs: with `song1`'s leader missing
from only the first slot of a 2-hour window, scheduling `song1` first should
cost `50^2 = 2500` and scheduling it second should cost `0`.  The code gives
both orderings cost 0, for two independent reasons: the type-confused
`is_available` answers `ok true` for everyone as long as every queried slot is
a key of `avB` — even though the leader really is not listed at `song1`'s
first slot (`specAvailable` is false) — and `find_schedule_costs` never
advances `current_time` between songs, so both songs of either ordering are
scored over the same interval `[0, 60)` and the order could not influence the
cost in any case. -/
theorem C5_scenarioB_divergence :
    find_schedule_costs [[song1, song2], [song2, song1]] 0 avB =
      .ok [([song1, song2], 0), ([song2, song1], 0)] ∧
    specAvailable song1.leader 0 60 avB = false := by
  have h1 : scheduleCost [song1, song2] 0 avB = .ok 0 := by
    simp [scheduleCost, songCost, is_available_eq, allSlotsPresent,
      List.lookup, TIMESTEP, song1, song2, avB, List.foldlM, except_bind_ok]
  have h2 : scheduleCost [song2, song1] 0 avB = .ok 0 := by
    simp [scheduleCost, songCost, is_available_eq, allSlotsPresent,
      List.lookup, TIMESTEP, song1, song2, avB, List.foldlM, except_bind_ok]
  refine ⟨?_, ?_⟩
  · simp [find_schedule_costs, List.mapM, List.mapM.loop, h1, h2, except_bind_ok]
  · simp [specAvailable, List.lookup, TIMESTEP, song1, avB, aliceS, bobS, carolS]

/-- C8: capacity invariant — for every candidate returned by the enumerator,
the sum of its songs' durations fits in the window. -/
theorem C8_capacity (songs : List Song) (startT endT : Nat) :
    ∀ sched ∈ find_schedules [] songs startT endT,
      durSum sched ≤ endT - startT := by
  intro sched hmem
  obtain ⟨rest, heq, hcap⟩ := find_schedules_shape [] songs startT endT sched hmem
  simp only [List.nil_append] at heq
  subst heq
  rcases eq_or_ne sched [] with rfl | hne
  · simp [durSum_nil]
  · have := hcap hne
    omega

theorem C8_witness :
    ([songA] ∈ find_schedules [] [songA, songB] 0 60) ∧
    durSum [songA] ≤ 60 - 0 := by
  have hmem : [songA] ∈ find_schedules [] [songA, songB] 0 60 := by
    rw [find_schedules_runAB]; simp
  exact ⟨hmem, C8_capacity [songA, songB] 0 60 [songA] hmem⟩

/-- C9: the ranked output is sorted ascending by cost, and candidates of equal
cost keep their relative input order (Python's `sorted` is stable; `main`
passes the schedules in the enumerator's discovery order).  Stability is
stated as: for every cost value, the subsequence of ranked candidates with
that cost equals the corresponding subsequence of the input. -/
theorem C9_ranking (scored : List (List Song × Nat)) :
    List.Pairwise (fun a b : List Song × Nat => a.2 ≤ b.2) (rankSchedules scored) ∧
    ∀ c : Nat, (rankSchedules scored).filter (fun x => x.2 == c) =
      scored.filter (fun x => x.2 == c) := by
  have htrans : ∀ (a b c : List Song × Nat),
      (decide (a.2 ≤ b.2)) = true → (decide (b.2 ≤ c.2)) = true →
      (decide (a.2 ≤ c.2)) = true := by
    intro a b c hab hbc
    simp only [decide_eq_true_eq] at *
    omega
  have htotal : ∀ (a b : List Song × Nat),
      ((decide (a.2 ≤ b.2)) || (decide (b.2 ≤ a.2))) = true := by
    intro a b
    rcases Nat.le_total a.2 b.2 with h | h <;> simp [h]
  constructor
  · have hs := List.sorted_mergeSort htrans htotal scored
    exact hs.imp (fun h => of_decide_eq_true h)
  · intro c
    have hperm : List.Perm (rankSchedules scored) scored :=
      List.mergeSort_perm scored _
    have hall : ∀ x ∈ scored.filter (fun x => x.2 == c), x.2 = c := by
      intro x hx
      simpa using (List.mem_filter.mp hx).2
    have hpw : List.Pairwise (fun a b : List Song × Nat => decide (a.2 ≤ b.2) = true)
        (scored.filter (fun x => x.2 == c)) := by
      apply List.pairwise_of_forall_mem_list
      intro a ha b hb
      rw [hall a ha, hall b hb]
      simp
    have hsub : List.Sublist (scored.filter (fun x => x.2 == c)) (rankSchedules scored) :=
      List.sublist_mergeSort htrans htotal hpw (List.filter_sublist scored)
    have hsub2 : List.Sublist
        ((scored.filter (fun x => x.2 == c)).filter (fun x => x.2 == c))
        ((rankSchedules scored).filter (fun x => x.2 == c)) :=
      hsub.filter _
    rw [List.filter_eq_self.mpr (fun a ha => (List.mem_filter.mp ha).2)] at hsub2
    have hlen : ((rankSchedules scored).filter (fun x => x.2 == c)).length =
        (scored.filter (fun x => x.2 == c)).length :=
      (hperm.filter _).length_eq
    exact (hsub2.eq_of_length hlen.symm).symm
